import Mathlib

/-!
Verification of the core generator in `create_game.py`: the tree generator
`generate_tree` and the sequence-building loop with its lookaside table and
`create_gif_copy` side effects.  Randomness (`random.choice(['R', 'L'])`) is
modelled by an explicit stream of coin flips `coins : Nat → Bool`; filesystem
side effects are modelled as a list of copy requests.
-/

/-- The three tree symbols of the program: `'N'`, `'L'`, `'R'`. -/
inductive TreeSym : Type
  | N : TreeSym
  | L : TreeSym
  | R : TreeSym
deriving DecidableEq

/-- One draw of `random.choice(['R', 'L'])`: `true` stands for `'R'`,
`false` for `'L'`. -/
def coinSym (b : Bool) : TreeSym :=
  if b then TreeSym.R else TreeSym.L

/-- The `while len(tree) < length - 2` loop of `generate_tree`, written with a
fuel argument (the loop appends one symbol per iteration, so `target` is always
enough fuel).  `used` counts the coin flips drawn so far. -/
def growLoop (coins : Nat → Bool) (target : Nat) : Nat → Nat → List TreeSym → List TreeSym
  | _, 0, tree => tree
  | used, fuel + 1, tree =>
    if tree.length < target then
      if tree.getLast? = some TreeSym.N then
        growLoop coins target (used + 1) fuel (tree ++ [coinSym (coins used)])
      else
        growLoop coins target used fuel (tree ++ [TreeSym.N])
    else
      tree

/-- `generate_tree(length)` from `create_game.py`.  Raising `ValueError` is
modelled by `Except.error` carrying the message of the source.  The loop runs
until the list reaches `length - 2` symbols, then `'R'` and `'N'` are appended
unconditionally. -/
def generate_tree (length : Int) (coins : Nat → Bool) : Except String (List TreeSym) :=
  if length < 5 ∨ length % 2 = 0 then
    Except.error "Length must be an odd number and at least 5"
  else
    Except.ok
      (growLoop coins (length - 2).toNat 0 (length - 2).toNat [TreeSym.N] ++ [TreeSym.R, TreeSym.N])

/-- One entry of the `sequence` list:
`[[correct_button, main_gif_basename], [wrong_button, death_gif_basename]]`. -/
structure StepDesc : Type where
  correctChoice : String
  successAssetId : String
  wrongChoice : String
  failureAssetId : String
deriving DecidableEq

/-- One `shutil.copyfile` request, recorded as its source and destination
paths. -/
structure CopyReq : Type where
  src : String
  dest : String
deriving DecidableEq

/-- `create_gif_copy(name, num)` from `create_game.py`: the copy request it
issues. -/
def create_gif_copy (name : String) (num : Nat) : CopyReq :=
  { src := "static/game_frames/" ++ name ++ ".gif"
    dest := "static/game_frame_copies/" ++ name ++ "_" ++ toString num ++ ".gif" }

/-- The `match (block, next_block, next_next_block)` dispatch: for a matched
window, the appended sequence entry together with the gif base name passed to
`create_gif_copy`; `none` for an unmatched window (the silent skip). -/
def matchWindow : TreeSym → TreeSym → TreeSym → Option (StepDesc × String)
  | TreeSym.L, TreeSym.N, TreeSym.L => some (⟨"R", "LNL", "L", "LN_DEATH"⟩, "LNL")
  | TreeSym.L, TreeSym.N, TreeSym.R => some (⟨"R", "LNR", "L", "LN_DEATH"⟩, "LNR")
  | TreeSym.R, TreeSym.N, TreeSym.L => some (⟨"L", "RNL", "R", "RN_DEATH"⟩, "RNL")
  | TreeSym.R, TreeSym.N, TreeSym.R => some (⟨"L", "RNR", "R", "RN_DEATH"⟩, "RNR")
  | TreeSym.N, TreeSym.L, TreeSym.N => some (⟨"R", "NLN", "L", "NLN_DEATH"⟩, "NLN")
  | TreeSym.N, TreeSym.R, TreeSym.N => some (⟨"L", "NRN", "R", "NRN_DEATH"⟩, "NRN")
  | _, _, _ => none

/-- The `next_next_block` computation: the sentinel `'L'` at the second-to-last
index, otherwise `tree[index + 2]`. -/
def nextNextBlock (tree : List TreeSym) (index : Nat) : TreeSym :=
  if index = tree.length - 2 then TreeSym.L else tree.getD (index + 2) TreeSym.N

/-- One iteration of the `for index, block in enumerate(tree)` loop: `none` for
the skipped last index and for an unmatched window, otherwise the appended
sequence entry paired with the issued copy request. -/
def stepAt (tree : List TreeSym) (index : Nat) : Option (StepDesc × CopyReq) :=
  if index = tree.length - 1 then
    none
  else
    let block := tree.getD index TreeSym.N
    let next_block := tree.getD (index + 1) TreeSym.N
    let next_next_block := nextNextBlock tree index
    match matchWindow block next_block next_next_block with
    | some (d, name) => some (d, create_gif_copy name index)
    | none => none

/-- The whole traversal, keeping for each matched index the index itself, the
appended entry and the issued copy request, in traversal order. -/
def stepsWithIndex (tree : List TreeSym) : List (Nat × StepDesc × CopyReq) :=
  (List.range tree.length).filterMap fun index =>
    (stepAt tree index).map fun p => (index, p.1, p.2)

/-- The result of the loop: the `sequence` list and the list of copy requests
issued, both in traversal order. -/
def buildSequence (tree : List TreeSym) : List StepDesc × List CopyReq :=
  ((stepsWithIndex tree).map fun x => x.2.1, (stepsWithIndex tree).map fun x => x.2.2)

example : generate_tree 5 (fun _ => true) = Except.ok [TreeSym.N, TreeSym.R, TreeSym.N, TreeSym.R, TreeSym.N] := by
  rfl

example : generate_tree 4 (fun _ => true) = Except.error "Length must be an odd number and at least 5" := by
  rfl

example : (buildSequence [TreeSym.N, TreeSym.R, TreeSym.N, TreeSym.R, TreeSym.N]).1 =
    [⟨"L", "NRN", "R", "NRN_DEATH"⟩, ⟨"L", "RNR", "R", "RN_DEATH"⟩,
     ⟨"L", "NRN", "R", "NRN_DEATH"⟩, ⟨"L", "RNL", "R", "RN_DEATH"⟩] := by
  decide

/-- Strict alternation: the symbol at every even index is `N` and the symbol at
every odd index is a direction symbol.  This is the invariant maintained by the
generation loop. -/
def alternating (t : List TreeSym) : Prop :=
  ∀ i, ∀ h : i < t.length, (t.get ⟨i, h⟩ = TreeSym.N ↔ i % 2 = 0)

theorem coinSym_ne_N (b : Bool) : coinSym b ≠ TreeSym.N := by
  cases b <;> simp [coinSym]

theorem alternating_singleton : alternating [TreeSym.N] := by
  intro i h
  have h0 : i = 0 := by
    simp only [List.length_singleton] at h
    omega
  subst h0
  simp

theorem alternating_snoc {t : List TreeSym} {s : TreeSym} (ht : alternating t)
    (hs : s = TreeSym.N ↔ t.length % 2 = 0) : alternating (t ++ [s]) := by
  intro i h
  rw [List.get_eq_getElem]
  rcases Nat.lt_or_ge i t.length with hi | hi
  · rw [List.getElem_append_left hi]
    have := ht i hi
    rwa [List.get_eq_getElem] at this
  · have hieq : i = t.length := by
      have := h
      simp only [List.length_append, List.length_singleton] at this
      omega
    rw [List.getElem_concat_length t s i hieq]
    rw [hieq]
    exact hs

theorem getLast?_of_alternating {t : List TreeSym} (ht : alternating t) (hne : t ≠ []) :
    (t.getLast? = some TreeSym.N ↔ t.length % 2 = 1) := by
  have hpos : 0 < t.length := List.length_pos.2 hne
  have hlt : t.length - 1 < t.length := by omega
  rw [List.getLast?_eq_getElem?, List.getElem?_eq_getElem hlt]
  have := ht (t.length - 1) hlt
  rw [List.get_eq_getElem] at this
  rw [Option.some_inj, this]
  omega

theorem growLoop_length_alternating (coins : Nat → Bool) (target : Nat) :
    ∀ (fuel used : Nat) (tree : List TreeSym), tree ≠ [] → alternating tree →
      target ≤ tree.length + fuel →
      (growLoop coins target used fuel tree).length = max target tree.length ∧
      alternating (growLoop coins target used fuel tree) := by
  intro fuel
  induction fuel with
  | zero =>
    intro used tree hne halt hle
    simp only [growLoop]
    exact ⟨(Nat.max_eq_right (by omega)).symm, halt⟩
  | succ fuel ih =>
    intro used tree hne halt hle
    simp only [growLoop]
    by_cases hlt : tree.length < target
    · rw [if_pos hlt]
      by_cases hN : tree.getLast? = some TreeSym.N
      · rw [if_pos hN]
        have hodd : tree.length % 2 = 1 := (getLast?_of_alternating halt hne).1 hN
        have halt2 : alternating (tree ++ [coinSym (coins used)]) := by
          exact alternating_snoc halt (iff_of_false (coinSym_ne_N _) (by omega))
        obtain ⟨hl, ha⟩ := ih (used + 1) (tree ++ [coinSym (coins used)]) (by simp) halt2
          (by simp only [List.length_append, List.length_singleton]; omega)
        refine ⟨?_, ha⟩
        rw [hl]
        simp only [List.length_append, List.length_singleton]
        rw [Nat.max_eq_left (by omega), Nat.max_eq_left (by omega)]
      · rw [if_neg hN]
        have heven : tree.length % 2 = 0 := by
          have hx : ¬ tree.length % 2 = 1 := fun hx =>
            hN ((getLast?_of_alternating halt hne).2 hx)
          omega
        have halt2 : alternating (tree ++ [TreeSym.N]) := by
          refine alternating_snoc halt ?_
          simp [heven]
        obtain ⟨hl, ha⟩ := ih used (tree ++ [TreeSym.N]) (by simp) halt2
          (by simp only [List.length_append, List.length_singleton]; omega)
        refine ⟨?_, ha⟩
        rw [hl]
        simp only [List.length_append, List.length_singleton]
        rw [Nat.max_eq_left (by omega), Nat.max_eq_left (by omega)]
    · rw [if_neg hlt]
      exact ⟨(Nat.max_eq_right (by omega)).symm, halt⟩

theorem generate_tree_eq (len : Int) (coins : Nat → Bool) (h5 : 5 ≤ len)
    (hodd : len % 2 = 1) :
    generate_tree len coins =
      Except.ok (growLoop coins (len - 2).toNat 0 (len - 2).toNat [TreeSym.N] ++
        [TreeSym.R, TreeSym.N]) := by
  unfold generate_tree
  rw [if_neg (by omega)]

theorem generate_tree_ok (len : Int) (coins : Nat → Bool) (h5 : 5 ≤ len)
    (hodd : len % 2 = 1) :
    ∃ t, generate_tree len coins = Except.ok t ∧
      t.length = len.toNat ∧ alternating t ∧
      t.getD (len.toNat - 2) TreeSym.N = TreeSym.R := by
  have hn3 : 3 ≤ (len - 2).toNat := by omega
  have hnodd : (len - 2).toNat % 2 = 1 := by omega
  obtain ⟨hlen, halt⟩ := growLoop_length_alternating coins (len - 2).toNat (len - 2).toNat 0
    [TreeSym.N] (by simp) alternating_singleton (by simp)
  set inner := growLoop coins (len - 2).toNat 0 (len - 2).toNat [TreeSym.N] with hinner
  have hlen2 : inner.length = (len - 2).toNat := by
    rw [hlen, List.length_singleton, Nat.max_eq_left (by omega)]
  refine ⟨inner ++ [TreeSym.R, TreeSym.N], generate_tree_eq len coins h5 hodd, ?_, ?_, ?_⟩
  · rw [List.length_append, hlen2]
    show (len - 2).toNat + 2 = len.toNat
    omega
  · have h1 : alternating (inner ++ [TreeSym.R]) := by
      refine alternating_snoc halt (iff_of_false (by decide) ?_)
      rw [hlen2]
      omega
    have h2 : alternating ((inner ++ [TreeSym.R]) ++ [TreeSym.N]) := by
      refine alternating_snoc h1 (iff_of_true rfl ?_)
      simp only [List.length_append, List.length_singleton, hlen2]
      omega
    simpa using h2
  · rw [List.getD_append_right inner [TreeSym.R, TreeSym.N] TreeSym.N (len.toNat - 2)
      (by rw [hlen2]; omega)]
    rw [show len.toNat - 2 - inner.length = 0 from by rw [hlen2]; omega]
    rfl

theorem alternating_getD_even {t : List TreeSym} (ht : alternating t) {i : Nat}
    (h : i < t.length) (he : i % 2 = 0) : t.getD i TreeSym.N = TreeSym.N := by
  rw [List.getD_eq_getElem _ _ h]
  have hx := ht i h
  rw [List.get_eq_getElem] at hx
  exact hx.2 he

theorem alternating_getD_odd {t : List TreeSym} (ht : alternating t) {i : Nat}
    (h : i < t.length) (ho : i % 2 = 1) :
    t.getD i TreeSym.N = TreeSym.L ∨ t.getD i TreeSym.N = TreeSym.R := by
  rw [List.getD_eq_getElem _ _ h]
  have hx := ht i h
  rw [List.get_eq_getElem] at hx
  cases hv : t[i] with
  | N =>
    have := hx.1 hv
    omega
  | L => exact Or.inl rfl
  | R => exact Or.inr rfl

theorem stepAt_isSome_of_alternating {t : List TreeSym} (ht : alternating t)
    (hodd : t.length % 2 = 1) (h3 : 3 ≤ t.length) {i : Nat} (hi : i < t.length - 1) :
    (stepAt t i).isSome = true := by
  have hilen : i < t.length := by omega
  have hi1 : i + 1 < t.length := by omega
  unfold stepAt
  rw [if_neg (by omega : ¬ i = t.length - 1)]
  rcases Nat.mod_two_eq_zero_or_one i with he | ho
  · have hb : t.getD i TreeSym.N = TreeSym.N := alternating_getD_even ht hilen he
    have hnn : ¬ i = t.length - 2 := by omega
    have hi2 : i + 2 < t.length := by omega
    have hnext2 : t.getD (i + 2) TreeSym.N = TreeSym.N :=
      alternating_getD_even ht hi2 (by omega)
    have hnx := alternating_getD_odd ht hi1 (by omega)
    simp only [nextNextBlock, if_neg hnn, hb, hnext2]
    rcases hnx with h | h <;> rw [h] <;> rfl
  · have hb := alternating_getD_odd ht hilen ho
    have hnextN : t.getD (i + 1) TreeSym.N = TreeSym.N :=
      alternating_getD_even ht hi1 (by omega)
    by_cases hsent : i = t.length - 2
    · simp only [nextNextBlock, if_pos hsent, hnextN]
      rcases hb with h | h <;> rw [h] <;> rfl
    · have hi2 : i + 2 < t.length := by omega
      have hnn2 := alternating_getD_odd ht hi2 (by omega)
      simp only [nextNextBlock, if_neg hsent, hnextN]
      rcases hb with h | h <;> rcases hnn2 with h2 | h2 <;> rw [h, h2] <;> rfl

theorem stepAt_last (t : List TreeSym) : stepAt t (t.length - 1) = none := by
  unfold stepAt
  rw [if_pos rfl]

theorem length_filterMap_of_isSome {α β : Type} (f : α → Option β) :
    ∀ l : List α, (∀ a ∈ l, (f a).isSome = true) → (l.filterMap f).length = l.length := by
  intro l
  induction l with
  | nil => simp
  | cons a tl ih =>
    intro h
    obtain ⟨b, hb⟩ := Option.isSome_iff_exists.1 (h a (by simp))
    rw [List.filterMap_cons_some hb, List.length_cons, List.length_cons,
      ih (fun x hx => h x (by simp [hx]))]

theorem stepsWithIndex_length_of_alternating {t : List TreeSym} (ht : alternating t)
    (hodd : t.length % 2 = 1) (h3 : 3 ≤ t.length) :
    (stepsWithIndex t).length = t.length - 1 := by
  unfold stepsWithIndex
  obtain ⟨m, hm⟩ : ∃ m, t.length = m + 1 := ⟨t.length - 1, by omega⟩
  rw [hm, List.range_succ, List.filterMap_append]
  have hlast : stepAt t m = none := by
    have : m = t.length - 1 := by omega
    rw [this]
    exact stepAt_last t
  rw [List.length_append, length_filterMap_of_isSome _ (List.range m) ?_]
  · simp [hlast]
  · intro a ha
    have ham : a < m := List.mem_range.1 ha
    have := stepAt_isSome_of_alternating ht hodd h3 (by omega : a < t.length - 1)
    obtain ⟨b, hb⟩ := Option.isSome_iff_exists.1 this
    simp [hb]

theorem stepAt_eq_some {tree : List TreeSym} {index : Nat} {p : StepDesc × CopyReq}
    (h : stepAt tree index = some p) :
    ∃ name, matchWindow (tree.getD index TreeSym.N) (tree.getD (index + 1) TreeSym.N)
        (nextNextBlock tree index) = some (p.1, name) ∧
      p.2 = create_gif_copy name index := by
  unfold stepAt at h
  by_cases hlast : index = tree.length - 1
  · rw [if_pos hlast] at h
    exact Option.noConfusion h
  · rw [if_neg hlast] at h
    have h2 : (match matchWindow (tree.getD index TreeSym.N) (tree.getD (index + 1) TreeSym.N)
          (nextNextBlock tree index) with
        | some (d, name) => some (d, create_gif_copy name index)
        | none => none) = some p := h
    rcases hmw : matchWindow (tree.getD index TreeSym.N) (tree.getD (index + 1) TreeSym.N)
        (nextNextBlock tree index) with _ | q
    · rw [hmw] at h2
      exact Option.noConfusion h2
    · obtain ⟨d0, name⟩ := q
      rw [hmw] at h2
      have h3 : some ((d0 : StepDesc), create_gif_copy name index) = some p := h2
      obtain rfl : ((d0 : StepDesc), create_gif_copy name index) = p := Option.some_inj.mp h3
      exact ⟨name, rfl, rfl⟩

theorem matchWindow_complement (b n nn : TreeSym) (d : StepDesc) (s : String)
    (h : matchWindow b n nn = some (d, s)) :
    (d.correctChoice = "L" ∧ d.wrongChoice = "R") ∨
    (d.correctChoice = "R" ∧ d.wrongChoice = "L") := by
  cases b <;> cases n <;> cases nn <;> simp [matchWindow] at h <;>
    (obtain ⟨rfl, rfl⟩ := h; decide)

theorem matchWindow_name (b n nn : TreeSym) (d : StepDesc) (s : String)
    (h : matchWindow b n nn = some (d, s)) : s = d.successAssetId := by
  cases b <;> cases n <;> cases nn <;> simp [matchWindow] at h <;>
    (obtain ⟨rfl, rfl⟩ := h; decide)

/-- C1: for every odd integer length at least 5, and every outcome of the coin
stream, `generate_tree` succeeds with a list of exactly `length` symbols that
starts with `N`, ends with `N`, has no two direction symbols adjacent, and has
the symbol at position `length - 2` equal to `R`. -/
theorem claim_C1 (len : Int) (coins : Nat → Bool) (h5 : 5 ≤ len) (hodd : len % 2 = 1) :
    ∃ t, generate_tree len coins = Except.ok t ∧
      t.length = len.toNat ∧
      t.head? = some TreeSym.N ∧
      t.getLast? = some TreeSym.N ∧
      (∀ i, i + 1 < t.length →
        ¬(t.getD i TreeSym.N ≠ TreeSym.N ∧ t.getD (i + 1) TreeSym.N ≠ TreeSym.N)) ∧
      t.getD (len.toNat - 2) TreeSym.N = TreeSym.R := by
  obtain ⟨t, hok, hlen, halt, hR⟩ := generate_tree_ok len coins h5 hodd
  refine ⟨t, hok, hlen, ?_, ?_, ?_, hR⟩
  · have hpos : 0 < t.length := by omega
    have h0 : t.getD 0 TreeSym.N = TreeSym.N := alternating_getD_even halt hpos (by omega)
    cases t with
    | nil => simp at hpos
    | cons a tl => simpa using h0
  · have hne : t ≠ [] := List.length_pos.1 (by omega)
    exact (getLast?_of_alternating halt hne).2 (by omega)
  · intro i hi1
    rcases Nat.mod_two_eq_zero_or_one i with he | ho
    · intro hcontra
      exact hcontra.1 (alternating_getD_even halt (by omega) he)
    · intro hcontra
      exact hcontra.2 (alternating_getD_even halt hi1 (by omega))

theorem claim_C1_witness :
    ∃ t, generate_tree 101 (fun _ => true) = Except.ok t ∧
      t.length = (101 : Int).toNat ∧
      t.head? = some TreeSym.N ∧
      t.getLast? = some TreeSym.N ∧
      (∀ i, i + 1 < t.length →
        ¬(t.getD i TreeSym.N ≠ TreeSym.N ∧ t.getD (i + 1) TreeSym.N ≠ TreeSym.N)) ∧
      t.getD ((101 : Int).toNat - 2) TreeSym.N = TreeSym.R :=
  claim_C1 101 (fun _ => true) (by decide) (by decide)

/-- C4: for every integer length that is even or less than 5, `generate_tree`
fails with the ValueError of the source and produces no tree. -/
theorem claim_C4 (len : Int) (coins : Nat → Bool) (h : len % 2 = 0 ∨ len < 5) :
    generate_tree len coins =
      Except.error "Length must be an odd number and at least 5" := by
  unfold generate_tree
  rw [if_pos (by omega)]

theorem claim_C4_witness :
    generate_tree 4 (fun _ => true) =
      Except.error "Length must be an odd number and at least 5" :=
  claim_C4 4 (fun _ => true) (Or.inl (by decide))

/-- Statement helper: the opposite direction letter of a symbol, as the string
used in the sequence entries. -/
def oppositeLetter : TreeSym → String
  | TreeSym.L => "R"
  | TreeSym.R => "L"
  | TreeSym.N => "N"

/-- C2: the six rows of the lookaside table are emitted exactly as the spec
lists them, and in every matched row the correct choice is the opposite of the
leading direction symbol of the window (the middle symbol for N-leading
windows). -/
theorem claim_C2 :
    (matchWindow TreeSym.L TreeSym.N TreeSym.L =
        some (⟨"R", "LNL", "L", "LN_DEATH"⟩, "LNL") ∧
      matchWindow TreeSym.L TreeSym.N TreeSym.R =
        some (⟨"R", "LNR", "L", "LN_DEATH"⟩, "LNR") ∧
      matchWindow TreeSym.R TreeSym.N TreeSym.L =
        some (⟨"L", "RNL", "R", "RN_DEATH"⟩, "RNL") ∧
      matchWindow TreeSym.R TreeSym.N TreeSym.R =
        some (⟨"L", "RNR", "R", "RN_DEATH"⟩, "RNR") ∧
      matchWindow TreeSym.N TreeSym.L TreeSym.N =
        some (⟨"R", "NLN", "L", "NLN_DEATH"⟩, "NLN") ∧
      matchWindow TreeSym.N TreeSym.R TreeSym.N =
        some (⟨"L", "NRN", "R", "NRN_DEATH"⟩, "NRN")) ∧
    ∀ b n nn d s, matchWindow b n nn = some (d, s) →
      d.correctChoice = oppositeLetter (if b = TreeSym.N then n else b) := by
  refine ⟨⟨rfl, rfl, rfl, rfl, rfl, rfl⟩, ?_⟩
  intro b n nn d s h
  cases b <;> cases n <;> cases nn <;> simp [matchWindow] at h <;>
    (obtain ⟨rfl, rfl⟩ := h; decide)

theorem claim_C2_witness :
    StepDesc.correctChoice ⟨"L", "RNL", "R", "RN_DEATH"⟩ =
      oppositeLetter (if TreeSym.R = TreeSym.N then TreeSym.N else TreeSym.R) :=
  claim_C2.2 TreeSym.R TreeSym.N TreeSym.L ⟨"L", "RNL", "R", "RN_DEATH"⟩ "RNL" rfl

/-- C5: at the second-to-last index the lookahead is the synthetic sentinel
`L`, whatever the tree holds; at every other processed index it is the symbol
at position `index + 2` of the tree. -/
theorem claim_C5 (tree : List TreeSym) (i : Nat) (hi : i < tree.length - 1) :
    (i = tree.length - 2 → nextNextBlock tree i = TreeSym.L) ∧
    (i ≠ tree.length - 2 →
      ∃ h : i + 2 < tree.length, nextNextBlock tree i = tree.get ⟨i + 2, h⟩) := by
  constructor
  · intro h
    unfold nextNextBlock
    rw [if_pos h]
  · intro h
    have h2 : i + 2 < tree.length := by omega
    refine ⟨h2, ?_⟩
    unfold nextNextBlock
    rw [if_neg h, List.getD_eq_getElem _ _ h2, List.get_eq_getElem]

theorem claim_C5_witness :
    nextNextBlock [TreeSym.N, TreeSym.R, TreeSym.N, TreeSym.R, TreeSym.N] 3 = TreeSym.L :=
  (claim_C5 [TreeSym.N, TreeSym.R, TreeSym.N, TreeSym.R, TreeSym.N] 3 (by decide)).1
    (by decide)

/-- C7: every entry of the built sequence has `wrongChoice` equal to the
complement of `correctChoice`: one of the two is `L` and the other `R`. -/
theorem claim_C7 (tree : List TreeSym) (d : StepDesc) (hd : d ∈ (buildSequence tree).1) :
    (d.correctChoice = "L" ∧ d.wrongChoice = "R") ∨
    (d.correctChoice = "R" ∧ d.wrongChoice = "L") := by
  have hd2 : d ∈ (stepsWithIndex tree).map (fun x => x.2.1) := hd
  obtain ⟨x, hx, rfl⟩ := List.mem_map.1 hd2
  have hx2 : x ∈ (List.range tree.length).filterMap
      (fun index => (stepAt tree index).map fun p => (index, p.1, p.2)) := hx
  obtain ⟨a, _, hfa⟩ := List.mem_filterMap.1 hx2
  obtain ⟨p, hp, hxp⟩ := Option.map_eq_some'.mp hfa
  subst hxp
  obtain ⟨name, hmw, _⟩ := stepAt_eq_some hp
  exact matchWindow_complement _ _ _ _ _ hmw

theorem claim_C7_witness :
    ((StepDesc.correctChoice ⟨"L", "NRN", "R", "NRN_DEATH"⟩ = "L" ∧
        StepDesc.wrongChoice ⟨"L", "NRN", "R", "NRN_DEATH"⟩ = "R") ∨
      (StepDesc.correctChoice ⟨"L", "NRN", "R", "NRN_DEATH"⟩ = "R" ∧
        StepDesc.wrongChoice ⟨"L", "NRN", "R", "NRN_DEATH"⟩ = "L")) :=
  claim_C7 [TreeSym.N, TreeSym.R, TreeSym.N, TreeSym.R, TreeSym.N]
    ⟨"L", "NRN", "R", "NRN_DEATH"⟩ (by decide)

theorem filterMap_eq_filterMap_erase {α β : Type} [DecidableEq α] (f : α → Option β)
    (a : α) (hfa : f a = none) :
    ∀ l : List α, l.filterMap f = (l.erase a).filterMap f := by
  intro l
  induction l with
  | nil => simp
  | cons b tl ih =>
    by_cases hb : b = a
    · subst hb
      rw [List.erase_cons_head, List.filterMap_cons_none hfa]
    · rw [List.erase_cons_tail (by simp [hb])]
      cases hfb : f b with
      | none => rw [List.filterMap_cons_none hfb, List.filterMap_cons_none hfb, ih]
      | some c => rw [List.filterMap_cons_some hfb, List.filterMap_cons_some hfb, ih]

/-- C8: a traversal position whose window matches no table row contributes no
entry and no copy request, and the traversal result is the same as if the
position were dropped from the index list. -/
theorem claim_C8 (tree : List TreeSym) (i : Nat) (hnone : stepAt tree i = none) :
    (∀ x ∈ stepsWithIndex tree, x.1 ≠ i) ∧
    stepsWithIndex tree =
      ((List.range tree.length).erase i).filterMap
        (fun index => (stepAt tree index).map fun p => (index, p.1, p.2)) := by
  constructor
  · intro x hx
    have hx2 : x ∈ (List.range tree.length).filterMap
        (fun index => (stepAt tree index).map fun p => (index, p.1, p.2)) := hx
    obtain ⟨a, _, hfa⟩ := List.mem_filterMap.1 hx2
    obtain ⟨p, hp, hxp⟩ := Option.map_eq_some'.mp hfa
    subst hxp
    intro hcontra
    have ha : a = i := hcontra
    subst ha
    rw [hnone] at hp
    exact Option.noConfusion hp
  · unfold stepsWithIndex
    exact filterMap_eq_filterMap_erase _ i (by rw [hnone]; rfl) _

theorem claim_C8_witness :
    stepsWithIndex [TreeSym.N, TreeSym.N, TreeSym.N, TreeSym.R, TreeSym.N] =
      ((List.range ([TreeSym.N, TreeSym.N, TreeSym.N, TreeSym.R, TreeSym.N] :
          List TreeSym).length).erase 0).filterMap
        (fun index =>
          (stepAt [TreeSym.N, TreeSym.N, TreeSym.N, TreeSym.R, TreeSym.N] index).map
            fun p => (index, p.1, p.2)) :=
  (claim_C8 [TreeSym.N, TreeSym.N, TreeSym.N, TreeSym.R, TreeSym.N] 0 (by decide)).2

/-- C6: the copy requests line up one to one with the sequence entries: the
k-th copy request is exactly the copy of the k-th entry's success asset named
with that entry's tree index, every recorded entry comes from its own index's
window match, and a skipped index contributes no entry and hence no copy. -/
theorem claim_C6 (tree : List TreeSym) :
    (buildSequence tree).1 = (stepsWithIndex tree).map (fun x => x.2.1) ∧
    (buildSequence tree).2 =
      (stepsWithIndex tree).map (fun x => create_gif_copy x.2.1.successAssetId x.1) ∧
    (∀ x ∈ stepsWithIndex tree, stepAt tree x.1 = some (x.2.1, x.2.2)) ∧
    (∀ i, stepAt tree i = none → ∀ x ∈ stepsWithIndex tree, x.1 ≠ i) := by
  have hmem : ∀ x ∈ stepsWithIndex tree, stepAt tree x.1 = some (x.2.1, x.2.2) := by
    intro x hx
    have hx2 : x ∈ (List.range tree.length).filterMap
        (fun index => (stepAt tree index).map fun p => (index, p.1, p.2)) := hx
    obtain ⟨a, _, hfa⟩ := List.mem_filterMap.1 hx2
    obtain ⟨p, hp, hxp⟩ := Option.map_eq_some'.mp hfa
    subst hxp
    exact hp
  refine ⟨rfl, ?_, hmem, ?_⟩
  · show (stepsWithIndex tree).map (fun x => x.2.2) = _
    refine List.map_congr_left ?_
    intro x hx
    obtain ⟨name, hmw, hcopy⟩ := stepAt_eq_some (hmem x hx)
    rw [hcopy, matchWindow_name _ _ _ _ _ hmw]
  · intro i hnone x hx hcontra
    have hp := hmem x hx
    rw [hcontra, hnone] at hp
    exact Option.noConfusion hp

theorem claim_C6_witness :
    (buildSequence [TreeSym.N, TreeSym.R, TreeSym.N, TreeSym.R, TreeSym.N]).2 =
      (stepsWithIndex [TreeSym.N, TreeSym.R, TreeSym.N, TreeSym.R, TreeSym.N]).map
        (fun x => create_gif_copy x.2.1.successAssetId x.1) :=
  (claim_C6 [TreeSym.N, TreeSym.R, TreeSym.N, TreeSym.R, TreeSym.N]).2.1

/-- C9: every generated tree strictly alternates (even indexes hold `N`, odd
indexes hold a direction symbol), so every window the builder examines,
including the sentinel window at the second-to-last index, matches a table
row. -/
theorem claim_C9 (len : Int) (coins : Nat → Bool) (h5 : 5 ≤ len) (hodd : len % 2 = 1) :
    ∃ t, generate_tree len coins = Except.ok t ∧
      (∀ i, ∀ h : i < t.length, i % 2 = 0 → t.get ⟨i, h⟩ = TreeSym.N) ∧
      (∀ i, ∀ h : i < t.length, i % 2 = 1 →
        (t.get ⟨i, h⟩ = TreeSym.L ∨ t.get ⟨i, h⟩ = TreeSym.R)) ∧
      (∀ i, i < t.length - 1 → (stepAt t i).isSome = true) := by
  obtain ⟨t, hok, hlen, halt, hR⟩ := generate_tree_ok len coins h5 hodd
  refine ⟨t, hok, ?_, ?_, ?_⟩
  · intro i h he
    exact (halt i h).2 he
  · intro i h ho
    have hd := alternating_getD_odd halt h ho
    rw [List.getD_eq_getElem _ _ h] at hd
    rw [List.get_eq_getElem]
    exact hd
  · intro i hi
    exact stepAt_isSome_of_alternating halt (by omega) (by omega) hi

theorem claim_C9_witness :
    ∃ t, generate_tree 101 (fun _ => true) = Except.ok t ∧
      (∀ i, ∀ h : i < t.length, i % 2 = 0 → t.get ⟨i, h⟩ = TreeSym.N) ∧
      (∀ i, ∀ h : i < t.length, i % 2 = 1 →
        (t.get ⟨i, h⟩ = TreeSym.L ∨ t.get ⟨i, h⟩ = TreeSym.R)) ∧
      (∀ i, i < t.length - 1 → (stepAt t i).isSome = true) :=
  claim_C9 101 (fun _ => true) (by decide) (by decide)

/-- The tree invariants exactly as section 3 of the spec states them, stated
from the words of the spec: fixed odd length of at least 5, first and last
symbol `N`, every direction symbol immediately followed by `N` (no two
direction symbols adjacent), and the second-to-last symbol equal to `R`. -/
def specTreeInvariants (t : List TreeSym) : Prop :=
  5 ≤ t.length ∧ t.length % 2 = 1 ∧
  t.head? = some TreeSym.N ∧ t.getLast? = some TreeSym.N ∧
  (∀ i, i < t.length - 1 →
    t.getD i TreeSym.N ≠ TreeSym.N → t.getD (i + 1) TreeSym.N = TreeSym.N) ∧
  t.getD (t.length - 2) TreeSym.N = TreeSym.R

instance (t : List TreeSym) : Decidable (specTreeInvariants t) := by
  unfold specTreeInvariants
  infer_instance

/-- C3 fails as stated: the section-3 invariants do not force strict
alternation, and on a tree with adjacent `N` symbols the builder skips the
unmatched windows.  This length-101 tree satisfies every section-3 invariant
yet yields 2 sequence entries, not 100. -/
theorem claim_C3_counterexample :
    specTreeInvariants (List.replicate 99 TreeSym.N ++ [TreeSym.R, TreeSym.N]) ∧
    (List.replicate 99 TreeSym.N ++ [TreeSym.R, TreeSym.N]).length = 101 ∧
    ¬(buildSequence (List.replicate 99 TreeSym.N ++ [TreeSym.R, TreeSym.N])).1.length =
      (List.replicate 99 TreeSym.N ++ [TreeSym.R, TreeSym.N]).length - 1 := by
  decide

/-- C3 (amended): for every tree actually produced by `generate_tree` (odd
length at least 5), the built sequence has exactly `length - 1` entries; in
particular 100 entries for the reference length 101. -/
theorem claim_C3 (len : Int) (coins : Nat → Bool) (h5 : 5 ≤ len) (hodd : len % 2 = 1) :
    ∃ t, generate_tree len coins = Except.ok t ∧
      (buildSequence t).1.length = len.toNat - 1 := by
  obtain ⟨t, hok, hlen, halt, hR⟩ := generate_tree_ok len coins h5 hodd
  refine ⟨t, hok, ?_⟩
  have hsteps : (stepsWithIndex t).length = t.length - 1 :=
    stepsWithIndex_length_of_alternating halt (by omega) (by omega)
  show ((stepsWithIndex t).map fun x => x.2.1).length = len.toNat - 1
  rw [List.length_map, hsteps]
  omega

theorem claim_C3_witness :
    ∃ t, generate_tree 101 (fun _ => true) = Except.ok t ∧
      (buildSequence t).1.length = 100 :=
  claim_C3 101 (fun _ => true) (by decide) (by decide)

/-- C10: for every generated tree the step descriptor at tree index
`length - 2` is the fixed row `(L, RNL, R, RN_DEATH)` with a copy of `RNL`
named with that index, and it is the final entry of the built sequence. -/
theorem claim_C10 (len : Int) (coins : Nat → Bool) (h5 : 5 ≤ len) (hodd : len % 2 = 1) :
    ∃ t, generate_tree len coins = Except.ok t ∧
      stepAt t (t.length - 2) =
        some (⟨"L", "RNL", "R", "RN_DEATH"⟩, create_gif_copy "RNL" (t.length - 2)) ∧
      (buildSequence t).1.getLast? = some ⟨"L", "RNL", "R", "RN_DEATH"⟩ := by
  obtain ⟨t, hok, hlen, halt, hR⟩ := generate_tree_ok len coins h5 hodd
  have hlodd : t.length % 2 = 1 := by omega
  have hstep : stepAt t (t.length - 2) =
      some (⟨"L", "RNL", "R", "RN_DEATH"⟩, create_gif_copy "RNL" (t.length - 2)) := by
    unfold stepAt
    rw [if_neg (by omega : ¬ t.length - 2 = t.length - 1)]
    have hb : t.getD (t.length - 2) TreeSym.N = TreeSym.R := by
      rw [hlen]
      exact hR
    have hnx : t.getD (t.length - 2 + 1) TreeSym.N = TreeSym.N := by
      rw [show t.length - 2 + 1 = t.length - 1 from by omega]
      exact alternating_getD_even halt (by omega) (by omega)
    have hnn : nextNextBlock t (t.length - 2) = TreeSym.L := by
      unfold nextNextBlock
      rw [if_pos rfl]
    simp only [hb, hnx, hnn]
    rfl
  refine ⟨t, hok, hstep, ?_⟩
  obtain ⟨m, hm⟩ : ∃ m, t.length = m + 2 := ⟨t.length - 2, by omega⟩
  have hm2 : t.length - 2 = m := by omega
  rw [hm2] at hstep
  have hlastnone : stepAt t (m + 1) = none := by
    rw [show m + 1 = t.length - 1 from by omega]
    exact stepAt_last t
  show (((List.range t.length).filterMap fun index =>
      (stepAt t index).map fun p => (index, p.1, p.2)).map fun x => x.2.1).getLast? =
    some ⟨"L", "RNL", "R", "RN_DEATH"⟩
  rw [hm, show m + 2 = (m + 1) + 1 from rfl, List.range_succ, List.filterMap_append,
    List.range_succ, List.filterMap_append]
  have e1 : List.filterMap (fun index => (stepAt t index).map fun p => (index, p.1, p.2))
      [m + 1] = [] := by
    simp [hlastnone]
  have e2 : List.filterMap (fun index => (stepAt t index).map fun p => (index, p.1, p.2))
      [m] = [(m, ⟨"L", "RNL", "R", "RN_DEATH"⟩, create_gif_copy "RNL" m)] := by
    simp [hstep]
  rw [e1, e2, List.append_nil, List.map_append]
  rw [show List.map (fun x => (x.2.1 : StepDesc))
      [(m, (⟨"L", "RNL", "R", "RN_DEATH"⟩ : StepDesc), create_gif_copy "RNL" m)] =
      [⟨"L", "RNL", "R", "RN_DEATH"⟩] from rfl]
  rw [List.getLast?_concat]

theorem claim_C10_witness :
    ∃ t, generate_tree 101 (fun _ => true) = Except.ok t ∧
      stepAt t (t.length - 2) =
        some (⟨"L", "RNL", "R", "RN_DEATH"⟩, create_gif_copy "RNL" (t.length - 2)) ∧
      (buildSequence t).1.getLast? = some ⟨"L", "RNL", "R", "RN_DEATH"⟩ :=
  claim_C10 101 (fun _ => true) (by decide) (by decide)
